import Mathlib

/-!
Verification of the web-ext build core.

This file gives a shallow embedding of the two source modules:

* `src/util/file-filter.js` — the minimatch-based `FileFilter`
  (namespace `WebExt.UtilFileFilter` below, with the glob matcher in
  `WebExt`), and
* the build command module — `safeFileName`, `getDefaultLocalizedName`,
  `defaultPackageCreator`'s name/path computation, `build`, and the
  `ignore`-library based `FileFilter` defined in that same module
  (namespace `WebExt.BuildModule`).

Paths are modelled as lists of path segments; an input path carries an
`isAbs` flag (a JS path string is absolute or relative).  All recursive
matchers take an explicit fuel argument so that they are structurally
recursive and kernel-evaluable; the top-level wrappers supply fuel that
is provably sufficient, and stability lemmas show the result does not
depend on the fuel once it is large enough.
-/

namespace WebExt

/-! ### Glob matching: a model of `minimatch` for the pattern subset the
filter uses (literal segments, `*` inside a segment, whole-segment `**`).

`minimatch(path, pattern)` splits both strings on `/` and runs
`matchOne` over the segment lists.  With the default options:

* a pattern segment that does not itself start with `.` never matches a
  path segment starting with `.` (hidden entries);
* a `**` segment matches zero or more path segments, but never swallows
  a segment starting with `.`; a trailing `**` matches one or more
  remaining segments, none of which may start with `.`;
* `matchOne` tries the zero-segment expansion of `**` only while path
  segments remain, so a pattern ending in `**` does not match a path
  that ends exactly at the `**` (minimatch: `a/**` does not match `a`).

Brace expansion, negation, extglobs and character classes are outside
the subset used by the filter and are not modelled. -/

/-- True when a path segment starts with a dot (a hidden entry, compare
`swallowee.charAt(0) === '.'` in minimatch's `matchOne`). -/
def headIsDot (s : String) : Bool :=
  match s.data with
  | c :: _ => c == '.'
  | [] => false

/-- Fuel-driven matcher for a single segment: the pattern is a list of
characters where `*` matches any (possibly empty) run of characters and
every other character matches itself.  Mirrors the regular expression
minimatch compiles for one pattern segment (for the `*`/literal subset). -/
def segMatchGo : Nat → List Char → List Char → Bool
  | 0, _, _ => false
  | _ + 1, [], s => s.isEmpty
  | n + 1, p :: ps, s =>
    if p = '*' then
      segMatchGo n ps s ||
        (match s with
         | [] => false
         | _ :: s' => segMatchGo n (p :: ps) s')
    else
      match s with
      | [] => false
      | c :: s' => p == c && segMatchGo n ps s'

/-- Segment matching with sufficient fuel. -/
def segMatch (pat s : List Char) : Bool :=
  segMatchGo (pat.length + s.length + 1) pat s

/-- One pattern segment against one path segment, including minimatch's
leading-dot rule: a hidden path segment is only matched by a pattern
segment that itself starts with a literal dot. -/
def segMatchTop (pat f : String) : Bool :=
  if headIsDot f && !headIsDot pat then false
  else segMatch pat.data f.data

/-- Fuel-driven model of minimatch's `matchOne` over segment lists.
The `p = "**"` branch follows the GLOBSTAR case: with more pattern left,
either expand `**` to zero segments or swallow one non-hidden segment;
a trailing `**` matches the (non-empty) remainder when no remaining
segment is hidden.  With the path exhausted, leftover pattern never
matches (minimatch returns false there for this pattern subset). -/
def mmMatchGo : Nat → List String → List String → Bool
  | 0, _, _ => false
  | _ + 1, [], [] => true
  | _ + 1, [], _ :: _ => false
  | _ + 1, _ :: _, [] => false
  | n + 1, p :: ps, f :: fs =>
    if p = "**" then
      if ps.isEmpty then
        (f :: fs).all (fun g => !headIsDot g)
      else
        mmMatchGo n ps (f :: fs) || (!headIsDot f && mmMatchGo n (p :: ps) fs)
    else
      segMatchTop p f && mmMatchGo n ps fs

/-- Glob matching of a pattern segment list against a path segment list
with sufficient fuel; this is the model of `minimatch(path, pattern)`. -/
def mmMatch (pat file : List String) : Bool :=
  mmMatchGo (pat.length + file.length + 1) pat file

/-! ### Path model: absolute paths as segment lists, `path.resolve`,
`path.relative`-based `isSubPath`. -/

/-- A raw path as handed to the filter: absolute or relative to the
source directory, already split on the path separator. -/
structure RawPath where
  isAbs : Bool
  segs : List String
deriving DecidableEq

/-- One step of `path.resolve` normalization: empty segments and `.` are
dropped, `..` removes the previous segment (at the root it is a no-op). -/
def normStep (acc : List String) (s : String) : List String :=
  if s = "" ∨ s = "." then acc
  else if s = ".." then acc.dropLast
  else acc ++ [s]

/-- Normalization of an absolute segment list, as performed by
`path.resolve` on an absolute path. -/
def normSegs (l : List String) : List String :=
  l.foldl normStep []

/-- Model of `path.resolve(sourceDir, p)`: an absolute path is
normalized as-is, a relative path is appended to `sourceDir` first.
This is `FileFilter.resolveWithSourceDir`. -/
def resolveWith (sourceDir : List String) (p : RawPath) : List String :=
  normSegs (if p.isAbs then p.segs else sourceDir ++ p.segs)

/-- A path segment that `path.resolve` keeps verbatim. -/
def plainSeg (s : String) : Bool :=
  s != "" && s != "." && s != ".."

/-- A segment that is kept verbatim and is not the globstar token; the
glob-matching lemmas below need source/artifacts directory segments not
to be `**` (a directory literally named `**` would itself be treated as
a glob by minimatch). -/
def cleanSeg (s : String) : Bool :=
  plainSeg s && s != "**"

/-- Strips the longest common prefix of two segment lists; this is what
`path.relative` computes before emitting `..` segments. -/
def stripCommon : List String → List String → List String × List String
  | a :: as, b :: bs => if a = b then stripCommon as bs else (a :: as, b :: bs)
  | as, bs => (as, bs)

/-- Model of `isSubPath(src, target)` from `file-filter.js`: compute
`path.relative(src, target)` (here: `..` segments for what is left of
`src`, then what is left of `target`) and apply the three source checks:
empty relative path, relative path `..`, relative path starting `../`. -/
def isSubPath (src target : List String) : Bool :=
  let r := stripCommon src target
  let relate := List.replicate r.1.length ".." ++ r.2
  match relate with
  | [] => false
  | [".."] => false
  | seg :: _ => seg != ".."

/-! ### The minimatch-based `FileFilter` of `src/util/file-filter.js`. -/

namespace UtilFileFilter

/-- The default `baseIgnoredPatterns` of the constructor, as relative
glob patterns (split on `/`). -/
def defaultBaseIgnoredPatterns : List RawPath :=
  [⟨false, ["**", "*.xpi"]⟩,
   ⟨false, ["**", "*.zip"]⟩,
   ⟨false, ["**", ".*"]⟩,
   ⟨false, ["**", ".*", "**", "*"]⟩,
   ⟨false, ["**", "node_modules"]⟩,
   ⟨false, ["**", "node_modules", "**", "*"]⟩]

/-- State of a constructed `FileFilter`: the resolved absolute ignore
patterns, in insertion order, and the resolved source directory. -/
structure FileFilter where
  filesToIgnore : List (List String)
  sourceDir : List String
deriving DecidableEq

/-- The `FileFilter` constructor.  `wextignoreLines` stands for the
newline-split contents of `<sourceDir>/.wextignore` when that file
exists and is readable (`none` otherwise); a line with no characters is
the empty relative path `⟨false, []⟩`.  Insertion order follows the
source: ignore-file lines, then `baseIgnoredPatterns`, then
`ignoreFiles`, then — when `artifactsDir` is a sub-path of `sourceDir` —
the artifacts directory and `artifactsDir/**/*`.  Every entry is pushed
through `resolveWithSourceDir` (modelled by `resolveWith`). -/
def FileFilter.construct (sourceDir0 : List String)
    (wextignoreLines : Option (List RawPath))
    (baseIgnoredPatterns : List RawPath)
    (ignoreFiles : List RawPath)
    (artifactsDir : Option (List String)) : FileFilter :=
  let sourceDir := normSegs sourceDir0
  let fromIgnoreFile :=
    (match wextignoreLines with
     | some lines => lines
     | none => []).map (resolveWith sourceDir)
  let base := baseIgnoredPatterns.map (resolveWith sourceDir)
  let extra := ignoreFiles.map (resolveWith sourceDir)
  let artifacts :=
    match artifactsDir with
    | none => []
    | some ad0 =>
      let ad := normSegs ad0
      if isSubPath sourceDir ad then [ad, ad ++ ["**", "*"]] else []
  { filesToIgnore := fromIgnoreFile ++ base ++ extra ++ artifacts,
    sourceDir := sourceDir }

/-- `wantFile`: resolve the queried path against `sourceDir` and return
`true` unless some stored pattern matches it (the source loops over
`filesToIgnore` and returns `false` on the first match, which is the
same boolean as an existence check over the list). -/
def FileFilter.wantFile (ff : FileFilter) (filePath : RawPath) : Bool :=
  let resolvedPath := resolveWith ff.sourceDir filePath
  !(ff.filesToIgnore.any fun test => mmMatch test resolvedPath)

end UtilFileFilter

/-! ### The build command module.

This models the second source file: `safeFileName`,
`getDefaultLocalizedName`, the name/path computation of
`defaultPackageCreator`, the `build` command, and the `ignore`-library
based `FileFilter` class defined in that same module.  File-system reads
and JSON parsing are external collaborators and enter as function
parameters; `Except` models a promise that either resolves or rejects. -/

/-- Decidable equality for `Except`, so that concrete runs of the
fallible operations below can be checked by evaluation. -/
instance {ε α : Type} [DecidableEq ε] [DecidableEq α] : DecidableEq (Except ε α) :=
  fun x y =>
    match x, y with
    | Except.ok a, Except.ok b =>
      if h : a = b then isTrue (h ▸ rfl) else isFalse (fun he => h (Except.ok.inj he))
    | Except.error a, Except.error b =>
      if h : a = b then isTrue (h ▸ rfl) else isFalse (fun he => h (Except.error.inj he))
    | Except.ok _, Except.error _ => isFalse (fun he => Except.noConfusion he)
    | Except.error _, Except.ok _ => isFalse (fun he => Except.noConfusion he)

namespace BuildModule

/-- The error class thrown by the build module (`UsageError` from
`../errors`; the spec's taxonomy calls this kind UserInputError). -/
structure UsageError where
  message : String
deriving DecidableEq

/-- One entry of a `_locales/<locale>/messages.json` catalog.  The JS
code checks `messageData[key] && messageData[key].message`, so a missing
`message` field and an empty-string `message` are both falsy. -/
structure MessageEntry where
  message : Option String
  description : Option String
deriving DecidableEq

/-- Character class of a localization key: the regular expression
`__MSG_([A-Za-z0-9@_]+?)__`. -/
def isKeyChar (c : Char) : Bool :=
  ('A' ≤ c && c ≤ 'Z') || ('a' ≤ c && c ≤ 'z') || ('0' ≤ c && c ≤ '9') ||
    c == '@' || c == '_'

/-- Reads the shortest non-empty run of key characters that is followed
by `__` (the lazy `+?` of the regular expression), returning the key and
the characters after the closing `__`; `none` when no such run starts
here. -/
def takeKey : List Char → Option (List Char × List Char)
  | [] => none
  | c :: cs =>
    if isKeyChar c then
      match cs with
      | '_' :: '_' :: rest => some ([c], rest)
      | _ =>
        match takeKey cs with
        | some (k, r) => some (c :: k, r)
        | none => none
    else none

/-- The next scanning action of the global-regex replace over the
manifest name: either the cursor sits on a complete `__MSG_<key>__`
token, or it advances one character, or the input is exhausted. -/
inductive ScanStep where
  | token (key : String) (after : List Char)
  | skip (c : Char) (rest : List Char)
  | done
deriving DecidableEq

/-- Computes the next scanning action at the current position. -/
def scanStep : List Char → ScanStep
  | '_' :: '_' :: 'M' :: 'S' :: 'G' :: '_' :: rest =>
    (match takeKey rest with
     | some (k, after) => ScanStep.token (String.mk k) after
     | none => ScanStep.skip '_' ('_' :: 'M' :: 'S' :: 'G' :: '_' :: rest))
  | c :: cs => ScanStep.skip c cs
  | [] => ScanStep.done

/-- The UsageError raised for a key that is absent from the catalog (or
whose entry has a falsy `message`): it names the message file and the
missing key. -/
def missingKeyError (messageFile messageName : String) : UsageError :=
  ⟨"The locale file " ++ messageFile ++ " is missing key: " ++ messageName⟩

/-- Fuel-driven model of
`manifestData.name.replace(/__MSG_([A-Za-z0-9@_]+?)__/g, ...)` with the
replacer that throws a UsageError when
`messageData[messageName] && messageData[messageName].message` is falsy
and otherwise substitutes the message text. -/
def replaceGo (messageData : String → Option MessageEntry) (messageFile : String) :
    Nat → List Char → Except UsageError (List Char)
  | 0, _ => Except.ok []
  | n + 1, l =>
    match scanStep l with
    | ScanStep.done => Except.ok []
    | ScanStep.skip c cs => (replaceGo messageData messageFile n cs).map (fun t => c :: t)
    | ScanStep.token messageName after =>
      match messageData messageName with
      | some ⟨some m, _⟩ =>
        if m = "" then Except.error (missingKeyError messageFile messageName)
        else (replaceGo messageData messageFile n after).map (fun t => m.data ++ t)
      | _ => Except.error (missingKeyError messageFile messageName)

/-- Fuel-driven list of the keys of all `__MSG_<key>__` tokens of the
name, in scanning order. -/
def scanKeysGo : Nat → List Char → List String
  | 0, _ => []
  | n + 1, l =>
    match scanStep l with
    | ScanStep.done => []
    | ScanStep.skip _ cs => scanKeysGo n cs
    | ScanStep.token key after => key :: scanKeysGo n after

/-- The keys of all localization tokens occurring in a manifest name. -/
def scanKeys (name : String) : List String :=
  scanKeysGo (name.data.length + 1) name.data

/-- Token substitution over a whole manifest name. -/
def replaceMessageTokens (messageData : String → Option MessageEntry)
    (messageFile : String) (name : String) : Except UsageError String :=
  (replaceGo messageData messageFile (name.data.length + 1) name.data).map String.mk

/-- Truthiness of `messageData[key] && messageData[key].message`. -/
def entryHasMessage : Option MessageEntry → Bool
  | some ⟨some m, _⟩ => m != ""
  | _ => false

/-- Manifest fields the build module reads. -/
structure ExtensionManifest where
  name : String
  version : String
  default_locale : Option String
deriving DecidableEq

/-- Model of `getDefaultLocalizedName({messageFile, manifestData})`:
read the message file (a read failure rejects with a UsageError naming
the file), parse it as JSON (a parse failure rejects with a UsageError
carrying the parser diagnostic), then substitute every
`__MSG_<key>__` token of the manifest name.  `readFile` and `parseJSON`
are the external collaborators `fs.readFile` and `parse-json`. -/
def getDefaultLocalizedName
    (readFile : String → Except String String)
    (parseJSON : String → String → Except String (String → Option MessageEntry))
    (messageFile : String) (manifestData : ExtensionManifest) :
    Except UsageError String :=
  match readFile messageFile with
  | Except.error err =>
    Except.error ⟨"Error reading messages.json file at " ++ messageFile ++ ": " ++ err⟩
  | Except.ok messageContents =>
    match parseJSON messageContents messageFile with
    | Except.error err => Except.error ⟨"Error parsing messages.json " ++ err⟩
    | Except.ok messageData =>
      replaceMessageTokens messageData messageFile manifestData.name

/-- Model of `safeFileName`: lower-case the name, then replace every
maximal run of characters outside `[a-z0-9.-]` by a single `_` (the
regular expression `/[^a-z0-9\\.-]+/g` matches greedy non-empty runs).
`collapseGo` carries a flag telling whether the previous character was
part of an unsafe run.  `Char.toLower` models the ASCII effect of
`String.prototype.toLowerCase` (the names at issue are ASCII). -/
def isSafeChar (c : Char) : Bool :=
  ('a' ≤ c && c ≤ 'z') || ('0' ≤ c && c ≤ '9') || c == '.' || c == '-'

/-- Run-collapsing replacement pass of `safeFileName`. -/
def collapseGo : Bool → List Char → List Char
  | _, [] => []
  | inRun, c :: cs =>
    if isSafeChar c then c :: collapseGo false cs
    else if inRun then collapseGo true cs
    else '_' :: collapseGo true cs

/-- Model of `safeFileName(name)` from the build module. -/
def safeFileName (name : String) : String :=
  String.mk (collapseGo false (name.data.map Char.toLower))

/-- Modelled from the spec: the spec's §4.3 step 5 (and claim C4) reads
"replacing every character outside `[a-z0-9.-]` with `_`" — a
per-character replacement, one `_` for each offending character.  This
definition follows those words; the source `safeFileName` collapses a
whole run to a single `_` instead. -/
def safeFileNameSpecPerChar (name : String) : String :=
  String.mk ((name.data.map Char.toLower).map (fun c => if isSafeChar c then c else '_'))

/-- No two adjacent underscores, the observable difference between the
run-collapsing replacement the source performs and a per-character
replacement. -/
def noDoubleUnderscore : List Char → Bool
  | [] => true
  | [_] => true
  | c :: d :: rest => !(c == '_' && d == '_') && noDoubleUnderscore (d :: rest)

/-- The archive file name `safeFileName(`${extensionName}-${version}.zip`)`
computed by `defaultPackageCreator`. -/
def packageNameOf (extensionName version : String) : String :=
  safeFileName (extensionName ++ "-" ++ version ++ ".zip")

/-- Name-resolution step of `defaultPackageCreator`: the JS guard is
`if (manifestData.default_locale)`, so localization runs exactly when
`default_locale` is a truthy (present and non-empty) string, reading
`<sourceDir>/_locales/<locale>/messages.json`; otherwise the manifest
name is used verbatim and no file is touched. -/
def resolveExtensionName
    (readFile : String → Except String String)
    (parseJSON : String → String → Except String (String → Option MessageEntry))
    (sourceDir : String) (manifestData : ExtensionManifest) :
    Except UsageError String :=
  match manifestData.default_locale with
  | some locale =>
    if locale = "" then Except.ok manifestData.name
    else
      getDefaultLocalizedName readFile parseJSON
        (sourceDir ++ "/_locales/" ++ locale ++ "/messages.json") manifestData
  | none => Except.ok manifestData.name

/-- The artifact path `path.join(artifactsDir, packageName)` returned by
`defaultPackageCreator` (after the archive buffer is written there). -/
def defaultPackagePath
    (readFile : String → Except String String)
    (parseJSON : String → String → Except String (String → Option MessageEntry))
    (sourceDir artifactsDir : String) (manifestData : ExtensionManifest) :
    Except UsageError String :=
  (resolveExtensionName readFile parseJSON sourceDir manifestData).map
    (fun extensionName =>
      artifactsDir ++ "/" ++ packageNameOf extensionName manifestData.version)

/-! #### The `ignore`-library based `FileFilter` defined in the build module. -/

/-- The default ignore rules of the build module's own `FileFilter`
(`this._ignore.add(filesToIgnore || [...])`). -/
def defaultFilesToIgnore : List String :=
  ["*.xpi", "*.zip", ".*", "node_modules"]

/-- The build module's `FileFilter`: a bag of gitignore-style rules, in
insertion order.  No path resolution is performed on rules or queries. -/
structure FileFilter where
  ignoreRules : List String
deriving DecidableEq

/-- The build module's `FileFilter` constructor: seed the rules with
`filesToIgnore` (or the defaults when the option is absent), then — when
a `sourceDir` is given and `<sourceDir>/.xpiignore` exists and is
readable — append its newline-split lines.  `readIgnoreFileLines` maps a
path to those lines (`none` when the file is missing or unreadable). -/
def FileFilter.construct (filesToIgnore : Option (List String))
    (sourceDir : Option (List String))
    (readIgnoreFileLines : List String → Option (List String)) : FileFilter :=
  let initial :=
    match filesToIgnore with
    | some fs => fs
    | none => defaultFilesToIgnore
  match sourceDir with
  | none => ⟨initial⟩
  | some dir =>
    match readIgnoreFileLines (dir ++ [".xpiignore"]) with
    | some lines => ⟨initial ++ lines⟩
    | none => ⟨initial⟩

/-- One gitignore pattern segment against one path segment: `*` matches
any run of characters (gitignore has no special rule for leading dots,
unlike minimatch), other characters match themselves. -/
def gitSegMatch (pat seg : String) : Bool :=
  segMatch pat.data seg.data

/-- Matching of a slash-containing rule against a leading prefix of the
path's segments. -/
def gitMatchSegs : List String → List String → Bool
  | [], _ => true
  | _ :: _, [] => false
  | r :: rs, s :: ss => gitSegMatch r s && gitMatchSegs rs ss

/-- Whether one gitignore rule ignores a path: a rule without `/`
matches a basename at any depth (and, as a directory name, everything
below it), a rule with `/` is anchored at the top of the tree.  The `!`
negation and `**` forms of gitignore are outside the rule subset the
module uses and are not modelled. -/
def gitMatchesRule (rule : String) (p : List String) : Bool :=
  if rule.data.contains '/' then
    gitMatchSegs ((rule.splitOn "/").filter (fun s => s != "")) p
  else
    p.any (fun seg => gitSegMatch rule seg)

/-- Model of `ignore().add(rules).ignores(path)` for the rule subset in
use. -/
def ignores (rules : List String) (p : List String) : Bool :=
  rules.any (fun r => gitMatchesRule r p)

/-- The build module's `FileFilter.wantFile(path)`: the queried path is
used verbatim (no `path.resolve`), and the file is wanted unless the
ignore instance matches it. -/
def FileFilter.wantFile (ff : FileFilter) (path : List String) : Bool :=
  !(ignores ff.ignoreRules path)

/-! #### The `build` command. -/

/-- Result of one packaging pass. -/
structure ExtensionBuildResult where
  extensionPath : String
deriving DecidableEq

/-- What `build` hands to `onSourceChange` when `asNeeded` is set: the
`onChange` handler and the `shouldWatchFile` predicate.  `onChange`
models `() => createPackage().catch((error) => { log.error(error.stack);
throw error; })` as a transformer on the outcome that the inner
`createPackage()` call settles with: it returns the emitted log lines
together with the outcome propagated to the watcher. -/
structure WatchRegistration where
  onChange : Except String ExtensionBuildResult →
    List String × Except String ExtensionBuildResult
  shouldWatchFile : List String → Bool

/-- The `.catch` handler wrapped around a watch-triggered rebuild: a
fulfilled rebuild passes through silently; a failed rebuild logs the
error (`log.error(error.stack)`) and re-throws the same error to the
watch layer. -/
def rebuildHandler (outcome : Except String ExtensionBuildResult) :
    List String × Except String ExtensionBuildResult :=
  match outcome with
  | Except.ok r => ([], Except.ok r)
  | Except.error e => ([e], Except.error e)

/-- The filter `build` actually uses: the caller-supplied one when the
`fileFilter` option is present, otherwise the default argument
`new FileFilter({ sourceDir })` — the build module's own class. -/
def effectiveFileFilter (fileFilterOpt : Option FileFilter) (sourceDir : List String)
    (readIgnoreFileLines : List String → Option (List String)) : FileFilter :=
  match fileFilterOpt with
  | some ff => ff
  | none => FileFilter.construct none (some sourceDir) readIgnoreFileLines

/-- Model of the `build` command.  The command prepares the artifacts
directory, awaits one packaging pass, and — when `asNeeded` is set —
registers the watcher without awaiting anything further; the value it
settles with is the result of that single initial packaging pass,
paired with the watch registration. -/
def build (sourceDir : List String) (asNeeded : Bool)
    (fileFilterOpt : Option FileFilter)
    (readIgnoreFileLines : List String → Option (List String))
    (prepareArtifactsDir : Except String Unit)
    (packageCreator : FileFilter → Except String ExtensionBuildResult) :
    Except String (ExtensionBuildResult × Option WatchRegistration) :=
  match prepareArtifactsDir with
  | Except.error e => Except.error e
  | Except.ok _ =>
    match packageCreator (effectiveFileFilter fileFilterOpt sourceDir readIgnoreFileLines) with
    | Except.error e => Except.error e
    | Except.ok result =>
      Except.ok (result,
        if asNeeded then
          some { onChange := rebuildHandler,
                 shouldWatchFile := fun p =>
                   (effectiveFileFilter fileFilterOpt sourceDir
                     readIgnoreFileLines).wantFile p }
        else none)

/-! #### Watch-session concurrency model.

The `onChange` handler registered by `build` invokes `createPackage()`
unconditionally: it consults no "currently building" flag and maintains
no queue.  `WatchSession` tracks how many rebuilds are currently in
flight; a `change` event runs the handler (starting one more rebuild)
and a `rebuildSettled` event retires one.  Event delivery is modelled
from the spec: §5 states that change events can arrive while a rebuild
from a prior event is still in flight, and §6 leaves the watcher's
delivery behaviour (an external collaborator whose code is not part of
the filtered sources) unconstrained, so a trace is valid as long as
`rebuildSettled` only retires an actually running rebuild. -/

structure WatchSession where
  inFlight : Nat
deriving DecidableEq

inductive WatchEvent where
  | change
  | rebuildSettled
deriving DecidableEq

/-- Effect of one event on the session: `onChange` has no guard, so a
`change` always starts one more rebuild. -/
def watchStep (s : WatchSession) : WatchEvent → WatchSession
  | WatchEvent.change => ⟨s.inFlight + 1⟩
  | WatchEvent.rebuildSettled => ⟨s.inFlight - 1⟩

/-- The session after a list of events. -/
def runWatch (s : WatchSession) (events : List WatchEvent) : WatchSession :=
  events.foldl watchStep s

/-- A trace is valid when every `rebuildSettled` retires a rebuild that
is actually running; `change` events may arrive at any time. -/
def validFrom (s : WatchSession) : List WatchEvent → Bool
  | [] => true
  | e :: es =>
    (match e with
     | WatchEvent.change => true
     | WatchEvent.rebuildSettled => decide (0 < s.inFlight)) &&
      validFrom (watchStep s e) es

/-- All states a trace passes through, the initial one included. -/
def statesFrom (s : WatchSession) : List WatchEvent → List WatchSession
  | [] => [s]
  | e :: es => s :: statesFrom (watchStep s e) es

/-- The single-flight property claimed for the orchestrator: never more
than one rebuild in flight at any point of the trace. -/
def SingleFlight (s : WatchSession) (events : List WatchEvent) : Prop :=
  ∀ st ∈ statesFrom s events, st.inFlight ≤ 1

end BuildModule

/-! ## Lemma development.

Everything from here on is a theorem; the embedding above is complete. -/

theorem segMatchGo_stable :
    ∀ n m pat s, pat.length + s.length < n → pat.length + s.length < m →
      segMatchGo n pat s = segMatchGo m pat s := by
  intro n
  induction n using Nat.strong_induction_on with
  | _ n ih =>
    intro m pat s hn hm
    obtain ⟨n', rfl⟩ : ∃ k, n = k + 1 := ⟨n - 1, by omega⟩
    obtain ⟨m', rfl⟩ : ∃ k, m = k + 1 := ⟨m - 1, by omega⟩
    cases pat with
    | nil => simp [segMatchGo]
    | cons p ps =>
      by_cases hp : p = '*'
      · subst hp
        cases s with
        | nil =>
          simp only [segMatchGo, reduceIte]
          rw [ih n' (by omega) m' ps []
                (by simp only [List.length_cons, List.length_nil] at *; omega)
                (by simp only [List.length_cons, List.length_nil] at *; omega)]
        | cons c s' =>
          simp only [segMatchGo, reduceIte]
          rw [ih n' (by omega) m' ps (c :: s')
                (by simp only [List.length_cons] at *; omega)
                (by simp only [List.length_cons] at *; omega),
              ih n' (by omega) m' ('*' :: ps) s'
                (by simp only [List.length_cons] at *; omega)
                (by simp only [List.length_cons] at *; omega)]
      · cases s with
        | nil => simp only [segMatchGo, if_neg hp]
        | cons c s' =>
          simp only [segMatchGo, if_neg hp]
          rw [ih n' (by omega) m' ps s'
                (by simp only [List.length_cons] at *; omega)
                (by simp only [List.length_cons] at *; omega)]

theorem segMatchGo_eq_segMatch {n : Nat} {pat s : List Char}
    (h : pat.length + s.length < n) : segMatchGo n pat s = segMatch pat s :=
  segMatchGo_stable n (pat.length + s.length + 1) pat s h (by omega)

theorem mmMatchGo_stable :
    ∀ n m pat fs, pat.length + fs.length < n → pat.length + fs.length < m →
      mmMatchGo n pat fs = mmMatchGo m pat fs := by
  intro n
  induction n using Nat.strong_induction_on with
  | _ n ih =>
    intro m pat fs hn hm
    obtain ⟨n', rfl⟩ : ∃ k, n = k + 1 := ⟨n - 1, by omega⟩
    obtain ⟨m', rfl⟩ : ∃ k, m = k + 1 := ⟨m - 1, by omega⟩
    cases pat with
    | nil => cases fs <;> simp [mmMatchGo]
    | cons p ps =>
      cases fs with
      | nil => simp [mmMatchGo]
      | cons f fs' =>
        by_cases hp : p = "**"
        · subst hp
          cases hps : ps.isEmpty
          · simp only [mmMatchGo, reduceIte, hps, Bool.false_eq_true, if_false]
            rw [ih n' (by omega) m' ps (f :: fs')
                  (by simp only [List.length_cons] at *; omega)
                  (by simp only [List.length_cons] at *; omega),
                ih n' (by omega) m' ("**" :: ps) fs'
                  (by simp only [List.length_cons] at *; omega)
                  (by simp only [List.length_cons] at *; omega)]
          · simp only [mmMatchGo, reduceIte, hps, if_true]
        · simp only [mmMatchGo, if_neg hp]
          rw [ih n' (by omega) m' ps fs'
                (by simp only [List.length_cons] at *; omega)
                (by simp only [List.length_cons] at *; omega)]

theorem mmMatchGo_eq_mmMatch {n : Nat} {pat fs : List String}
    (h : pat.length + fs.length < n) : mmMatchGo n pat fs = mmMatch pat fs :=
  mmMatchGo_stable n (pat.length + fs.length + 1) pat fs h (by omega)

theorem foldl_normStep_plain :
    ∀ (b : List String) (acc : List String), b.all plainSeg = true →
      b.foldl normStep acc = acc ++ b := by
  intro b
  induction b with
  | nil => simp
  | cons s b' ih =>
    intro acc hall
    simp only [List.all_cons, Bool.and_eq_true] at hall
    have hs : normStep acc s = acc ++ [s] := by
      simp only [plainSeg, Bool.and_eq_true, bne_iff_ne, ne_eq] at hall
      simp [normStep, hall.1.1.1, hall.1.1.2, hall.1.2]
    simp only [List.foldl_cons, hs, ih (acc ++ [s]) hall.2, List.append_assoc,
      List.singleton_append]

theorem normSegs_append_plain {a b : List String} (hb : b.all plainSeg = true) :
    normSegs (a ++ b) = normSegs a ++ b := by
  simp only [normSegs, List.foldl_append]
  exact foldl_normStep_plain b (a.foldl normStep []) hb

theorem normSegs_of_plain {l : List String} (h : l.all plainSeg = true) :
    normSegs l = l := by
  have := normSegs_append_plain (a := []) (b := l) h
  simpa [normSegs] using this

theorem stripCommon_self_append :
    ∀ (a r : List String), stripCommon a (a ++ r) = ([], r) := by
  intro a
  induction a with
  | nil =>
    intro r
    cases r <;> simp [stripCommon]
  | cons x a' ih =>
    intro r
    simp [stripCommon, ih r]

theorem stripCommon_fst_nil :
    ∀ (a b r : List String), stripCommon a b = ([], r) → b = a ++ r := by
  intro a
  induction a with
  | nil =>
    intro b r h
    cases b <;> simp_all [stripCommon]
  | cons x a' ih =>
    intro b r h
    cases b with
    | nil => simp [stripCommon] at h
    | cons y b' =>
      by_cases hxy : x = y
      · subst hxy
        simp only [stripCommon, if_pos rfl] at h
        simpa using ih b' r h
      · simp [stripCommon, hxy] at h

theorem isSubPath_append {src rest : List String} (hne : rest ≠ [])
    (hhd : ∀ s ∈ rest, s ≠ "..") : isSubPath src (src ++ rest) = true := by
  unfold isSubPath
  rw [stripCommon_self_append]
  cases rest with
  | nil => exact absurd rfl hne
  | cons s rest' =>
    have hs : s ≠ ".." := hhd s (by simp)
    cases rest' with
    | nil => simp [hs]
    | cons t rest'' => simp [hs]

theorem isSubPath_extends {src target : List String}
    (h : isSubPath src target = true) :
    ∃ rest, rest ≠ [] ∧ target = src ++ rest := by
  unfold isSubPath at h
  rcases hsc : stripCommon src target with ⟨up, down⟩
  rw [hsc] at h
  cases up with
  | nil =>
    cases down with
    | nil => simp at h
    | cons d ds =>
      exact ⟨d :: ds, by simp, stripCommon_fst_nil src target (d :: ds) hsc⟩
  | cons u us =>
    exfalso
    cases us with
    | nil =>
      cases down with
      | nil => simp at h
      | cons d ds => simp at h
    | cons v vs => simp [List.replicate_succ] at h

/-! ### Helper lemmas about the glob matcher. -/

theorem segMatchGo_star_all :
    ∀ (s : List Char) (n : Nat), s.length + 2 ≤ n → segMatchGo n ['*'] s = true := by
  intro s
  induction s with
  | nil =>
    intro n hn
    obtain ⟨n', rfl⟩ : ∃ k, n = k + 1 := ⟨n - 1, by omega⟩
    obtain ⟨n'', rfl⟩ : ∃ k, n' = k + 1 := ⟨n' - 1, by omega⟩
    simp [segMatchGo]
  | cons c s' ih =>
    intro n hn
    obtain ⟨n', rfl⟩ : ∃ k, n = k + 1 := ⟨n - 1, by omega⟩
    simp only [segMatchGo, reduceIte]
    have := ih n' (by simp only [List.length_cons] at hn; omega)
    simp [this]

theorem segMatch_star (s : List Char) : segMatch ['*'] s = true :=
  segMatchGo_star_all s _ (by simp [segMatch]; omega)

theorem segMatchGo_self :
    ∀ (l : List Char) (n : Nat), 2 * l.length + 1 ≤ n → segMatchGo n l l = true := by
  intro l
  induction l with
  | nil =>
    intro n hn
    obtain ⟨n', rfl⟩ : ∃ k, n = k + 1 := ⟨n - 1, by omega⟩
    simp [segMatchGo]
  | cons c cs ih =>
    intro n hn
    simp only [List.length_cons] at hn
    obtain ⟨n', rfl⟩ : ∃ k, n = k + 1 := ⟨n - 1, by omega⟩
    by_cases hc : c = '*'
    · subst hc
      obtain ⟨n'', rfl⟩ : ∃ k, n' = k + 1 := ⟨n' - 1, by omega⟩
      simp only [segMatchGo, reduceIte]
      have h1 : segMatchGo n'' cs cs = true := ih n'' (by omega)
      simp [h1]
    · simp only [segMatchGo, if_neg hc]
      have h1 : segMatchGo n' cs cs = true := ih n' (by omega)
      simp [h1]

theorem segMatch_self (l : List Char) : segMatch l l = true :=
  segMatchGo_self l _ (by simp [segMatch]; omega)

theorem segMatchTop_self (s : String) : segMatchTop s s = true := by
  unfold segMatchTop
  cases h : headIsDot s <;> simp [h, segMatch_self]

theorem headIsDot_cons {s : String} (h : headIsDot s = true) :
    ∃ t, s.data = '.' :: t := by
  unfold headIsDot at h
  rcases hs : s.data with _ | ⟨c, t⟩
  · rw [hs] at h; simp at h
  · rw [hs] at h
    simp only [beq_iff_eq] at h
    exact ⟨t, by rw [h]⟩

theorem segMatchTop_dotstar {f : String} (hf : headIsDot f = true) :
    segMatchTop ".*" f = true := by
  have hpat : headIsDot ".*" = true := by decide
  unfold segMatchTop
  rw [hf, hpat]
  simp only [Bool.not_true, Bool.and_false, Bool.false_eq_true, if_false]
  obtain ⟨t, ht⟩ := headIsDot_cons hf
  show segMatch ('.' :: '*' :: []) f.data = true
  rw [ht]
  unfold segMatch
  obtain ⟨n', hn⟩ : ∃ k, ['.', '*'].length + ('.' :: t).length + 1 = k + 1 :=
    ⟨_, rfl⟩
  rw [hn]
  simp only [segMatchGo, reduceIte]
  have : segMatchGo n' ['*'] t = true := by
    apply segMatchGo_star_all
    simp only [List.length_cons, List.length_nil] at hn ⊢
    omega
  simp [this]

theorem segMatchTop_star {f : String} (hf : headIsDot f = false) :
    segMatchTop "*" f = true := by
  unfold segMatchTop
  rw [hf]
  simpa using segMatch_star f.data

theorem mmMatch_nil : mmMatch [] [] = true := rfl

theorem mmMatch_pat_nil (p : String) (ps : List String) :
    mmMatch (p :: ps) [] = false := by
  obtain ⟨n', hn⟩ : ∃ k, (p :: ps).length + ([] : List String).length + 1 = k + 1 :=
    ⟨_, rfl⟩
  have e1 : mmMatch (p :: ps) [] = mmMatchGo (n' + 1) (p :: ps) [] := by
    rw [← hn]; rfl
  rw [e1]
  simp [mmMatchGo]

theorem mmMatch_cons_seg {p : String} (hp : p ≠ "**") (ps : List String)
    (f : String) (fs : List String) :
    mmMatch (p :: ps) (f :: fs) = (segMatchTop p f && mmMatch ps fs) := by
  obtain ⟨n', hn⟩ : ∃ k, (p :: ps).length + (f :: fs).length + 1 = k + 1 := ⟨_, rfl⟩
  have e1 : mmMatch (p :: ps) (f :: fs) = mmMatchGo (n' + 1) (p :: ps) (f :: fs) := by
    rw [← hn]; rfl
  rw [e1]
  simp only [mmMatchGo, if_neg hp]
  rw [mmMatchGo_eq_mmMatch (by simp only [List.length_cons] at hn ⊢; omega)]

theorem mmMatch_cons_globstar {ps : List String} (f : String) (fs : List String)
    (hps : ps ≠ []) :
    mmMatch ("**" :: ps) (f :: fs) =
      (mmMatch ps (f :: fs) || (!headIsDot f && mmMatch ("**" :: ps) fs)) := by
  obtain ⟨p₀, ps', rfl⟩ : ∃ a l, ps = a :: l := by
    cases ps with
    | nil => exact absurd rfl hps
    | cons a l => exact ⟨a, l, rfl⟩
  obtain ⟨n', hn⟩ : ∃ k, ("**" :: p₀ :: ps').length + (f :: fs).length + 1 = k + 1 :=
    ⟨_, rfl⟩
  have e1 : mmMatch ("**" :: p₀ :: ps') (f :: fs) =
      mmMatchGo (n' + 1) ("**" :: p₀ :: ps') (f :: fs) := by
    rw [← hn]; rfl
  rw [e1]
  simp only [mmMatchGo, reduceIte, List.isEmpty_cons, Bool.false_eq_true, if_false]
  rw [mmMatchGo_eq_mmMatch
        (show (p₀ :: ps').length + (f :: fs).length < n' by
          simp only [List.length_cons] at hn ⊢; omega),
      mmMatchGo_eq_mmMatch
        (show ("**" :: p₀ :: ps').length + fs.length < n' by
          simp only [List.length_cons] at hn ⊢; omega)]

theorem mmMatch_globstar_trailing (f : String) (fs : List String) :
    mmMatch ["**"] (f :: fs) = (f :: fs).all (fun g => !headIsDot g) := by
  obtain ⟨n', hn⟩ : ∃ k, (["**"] : List String).length + (f :: fs).length + 1 = k + 1 :=
    ⟨_, rfl⟩
  have e1 : mmMatch ["**"] (f :: fs) = mmMatchGo (n' + 1) ["**"] (f :: fs) := by
    rw [← hn]; rfl
  rw [e1]
  simp [mmMatchGo]

theorem mmMatch_cons_notstar {s : String} {p f : List String} (hs : s ≠ "**")
    (hseg : segMatchTop s s = true) (h : mmMatch p f = true) :
    mmMatch (s :: p) (s :: f) = true := by
  rw [mmMatch_cons_seg hs p s f]
  simp [hseg, h]

theorem mmMatch_append_left :
    ∀ (pre : List String) {p f : List String}, (∀ s ∈ pre, s ≠ "**") →
      mmMatch p f = true → mmMatch (pre ++ p) (pre ++ f) = true := by
  intro pre
  induction pre with
  | nil => intro p f _ h; simpa using h
  | cons s pre' ih =>
    intro p f hpre h
    have hs : s ≠ "**" := hpre s (by simp)
    simp only [List.cons_append]
    exact mmMatch_cons_notstar hs (segMatchTop_self s)
      (ih (fun t ht => hpre t (by simp [ht])) h)

theorem mmMatch_self {l : List String} (h : ∀ s ∈ l, s ≠ "**") :
    mmMatch l l = true := by
  have := mmMatch_append_left l (p := []) (f := []) h mmMatch_nil
  simpa using this

theorem mmMatch_globstar_star :
    ∀ (rest : List String), rest ≠ [] → rest.all (fun s => !headIsDot s) = true →
      mmMatch ["**", "*"] rest = true := by
  intro rest
  induction rest with
  | nil => intro h; exact absurd rfl h
  | cons x rest' ih =>
    intro _ hall
    simp only [List.all_cons, Bool.and_eq_true] at hall
    rw [mmMatch_cons_globstar x rest' (by simp)]
    cases rest' with
    | nil =>
      have h1 : mmMatch ["*"] [x] = true := by
        rw [mmMatch_cons_seg (by decide) [] x []]
        simp [segMatchTop_star (by simpa using hall.1), mmMatch_nil]
      simp [h1]
    | cons y rest'' =>
      have h2 := ih (by simp) hall.2
      simp [h2, hall.1]

theorem mmMatch_globstar_zero {ps : List String} {f : String} {fs : List String}
    (hps : ps ≠ []) (h : mmMatch ps (f :: fs) = true) :
    mmMatch ("**" :: ps) (f :: fs) = true := by
  rw [mmMatch_cons_globstar f fs hps]
  simp [h]

theorem mmMatch_globstar_swallow :
    ∀ (xs : List String) {ps fs : List String}, ps ≠ [] →
      xs.all (fun s => !headIsDot s) = true →
      mmMatch ("**" :: ps) fs = true →
      mmMatch ("**" :: ps) (xs ++ fs) = true := by
  intro xs
  induction xs with
  | nil => intro ps fs _ _ h; simpa using h
  | cons x xs' ih =>
    intro ps fs hps hall h
    simp only [List.all_cons, Bool.and_eq_true] at hall
    simp only [List.cons_append]
    rw [mmMatch_cons_globstar x (xs' ++ fs) hps]
    have h2 := ih hps hall.2 h
    simp [h2, hall.1]

namespace BuildModule

theorem takeKey_rest_lt :
    ∀ (l : List Char) {k r : List Char}, takeKey l = some (k, r) →
      r.length < l.length := by
  intro l
  induction l with
  | nil => intro k r h; simp [takeKey] at h
  | cons c cs ih =>
    intro k r h
    unfold takeKey at h
    split at h
    · split at h
      next rest =>
        simp only [Option.some.injEq, Prod.mk.injEq] at h
        obtain ⟨-, h2⟩ := h
        subst h2
        simp only [List.length_cons]
        omega
      next =>
        split at h
        next k' r' htk =>
          simp only [Option.some.injEq, Prod.mk.injEq] at h
          obtain ⟨-, h2⟩ := h
          subst h2
          have := ih htk
          simp only [List.length_cons]
          omega
        next _ => simp at h
    · simp at h

theorem scanStep_skip_eq {l : List Char} {c : Char} {cs : List Char}
    (h : scanStep l = ScanStep.skip c cs) : l = c :: cs := by
  unfold scanStep at h
  split at h
  · split at h
    · simp at h
    · injection h with h1 h2
      subst h1; subst h2; rfl
  · injection h with h1 h2
    subst h1; subst h2; rfl
  · simp at h

theorem scanStep_token_lt {l : List Char} {key : String} {after : List Char}
    (h : scanStep l = ScanStep.token key after) : after.length < l.length := by
  unfold scanStep at h
  split at h
  next rest =>
    split at h
    next k after' htk =>
      injection h with h1 h2
      subst h2
      have := takeKey_rest_lt rest htk
      simp only [List.length_cons]
      omega
    · simp at h
  · simp at h
  · simp at h

theorem scanStep_done_eq {l : List Char} (h : scanStep l = ScanStep.done) :
    l = [] := by
  unfold scanStep at h
  split at h
  · split at h <;> simp at h
  · simp at h
  · rfl

end BuildModule

/-! ### Further path and segment lemmas. -/

theorem resolveWith_rel_plain {sd pat : List String} (hsd : sd.all plainSeg = true)
    (hp : pat.all plainSeg = true) : resolveWith sd ⟨false, pat⟩ = sd ++ pat := by
  show normSegs (sd ++ pat) = sd ++ pat
  rw [normSegs_append_plain hp, normSegs_of_plain hsd]

theorem resolveWith_abs (sd : List String) (p : List String) :
    resolveWith sd ⟨true, p⟩ = normSegs p := rfl

theorem cleanSeg_all_plain {l : List String} (h : l.all cleanSeg = true) :
    l.all plainSeg = true := by
  simp only [List.all_eq_true, cleanSeg, Bool.and_eq_true] at h ⊢
  exact fun s hs => (h s hs).1

theorem cleanSeg_all_ne {l : List String} (h : l.all cleanSeg = true) :
    ∀ s ∈ l, s ≠ "**" := by
  simp only [List.all_eq_true, cleanSeg, Bool.and_eq_true, bne_iff_ne, ne_eq] at h
  exact fun s hs => (h s hs).2

theorem all_and_split {l : List String} {p q : String → Bool}
    (h : l.all (fun s => p s && q s) = true) :
    l.all p = true ∧ l.all q = true := by
  simp only [List.all_eq_true, Bool.and_eq_true] at h ⊢
  exact ⟨fun s hs => (h s hs).1, fun s hs => (h s hs).2⟩

theorem count_one_decomp {r : List String} (h : r.countP headIsDot = 1) :
    ∃ pre h0 post, r = pre ++ h0 :: post ∧
      pre.all (fun s => !headIsDot s) = true ∧
      post.all (fun s => !headIsDot s) = true ∧ headIsDot h0 = true := by
  induction r with
  | nil => simp [List.countP_nil] at h
  | cons x r' ih =>
    rw [List.countP_cons] at h
    cases hx : headIsDot x
    · rw [hx] at h
      simp only [Bool.false_eq_true, if_false, Nat.add_zero] at h
      obtain ⟨pre, h0, post, rfl, hpre, hpost, hh⟩ := ih h
      exact ⟨x :: pre, h0, post, rfl, by simp [hpre, hx], hpost, hh⟩
    · rw [hx] at h
      simp only [if_true] at h
      have hz : r'.countP headIsDot = 0 := by omega
      refine ⟨[], x, r', rfl, rfl, ?_, hx⟩
      simp only [List.all_eq_true]
      intro s hs
      have := List.countP_eq_zero.mp hz s hs
      simpa using this

/-! ### Claim theorems about the minimatch-based filter (C1, C2, C8, C10). -/

namespace UtilFileFilter

theorem wantFile_false_of_match {ff : FileFilter} {p : RawPath} {t : List String}
    (ht : t ∈ ff.filesToIgnore)
    (hm : mmMatch t (resolveWith ff.sourceDir p) = true) :
    ff.wantFile p = false := by
  simp only [FileFilter.wantFile, Bool.not_eq_false', List.any_eq_true]
  exact ⟨t, ht, hm⟩

theorem construct_base_spec {sd : List String} (hsd : sd.all plainSeg = true) :
    (FileFilter.construct sd none defaultBaseIgnoredPatterns [] none).filesToIgnore =
      [sd ++ ["**", "*.xpi"], sd ++ ["**", "*.zip"], sd ++ ["**", ".*"],
       sd ++ ["**", ".*", "**", "*"], sd ++ ["**", "node_modules"],
       sd ++ ["**", "node_modules", "**", "*"]] ∧
    (FileFilter.construct sd none defaultBaseIgnoredPatterns [] none).sourceDir = sd := by
  constructor
  · simp only [FileFilter.construct]
    rw [normSegs_of_plain hsd]
    simp only [defaultBaseIgnoredPatterns, List.map_cons, List.map_nil,
      List.append_nil, List.nil_append]
    rw [resolveWith_rel_plain hsd (by decide), resolveWith_rel_plain hsd (by decide),
        resolveWith_rel_plain hsd (by decide), resolveWith_rel_plain hsd (by decide),
        resolveWith_rel_plain hsd (by decide), resolveWith_rel_plain hsd (by decide)]
  · show normSegs sd = sd
    exact normSegs_of_plain hsd

/-- Claim C1, amended.  For a filter built from the default base ignore
patterns: the file `.secret` and the file `old.zip` under `sourceDir`
are excluded; a file under `node_modules/` is excluded whenever at most
one path segment below `node_modules` is hidden (the counterexample
shows that two nested hidden segments escape every default pattern,
because minimatch's `**` and `*` never match hidden entries); and every
path that matches none of the stored patterns is wanted. -/
theorem c1_default_patterns_exclusions (sd : List String)
    (hsd : sd.all cleanSeg = true) :
    (FileFilter.construct sd none defaultBaseIgnoredPatterns [] none).wantFile
      ⟨false, [".secret"]⟩ = false ∧
    (FileFilter.construct sd none defaultBaseIgnoredPatterns [] none).wantFile
      ⟨false, ["old.zip"]⟩ = false ∧
    (∀ r : List String, r ≠ [] → r.all plainSeg = true → r.countP headIsDot ≤ 1 →
      (FileFilter.construct sd none defaultBaseIgnoredPatterns [] none).wantFile
        ⟨false, "node_modules" :: r⟩ = false) ∧
    (∀ p : RawPath,
      (∀ t ∈ (FileFilter.construct sd none defaultBaseIgnoredPatterns [] none).filesToIgnore,
        mmMatch t
          (resolveWith
            (FileFilter.construct sd none defaultBaseIgnoredPatterns [] none).sourceDir p)
          = false) →
      (FileFilter.construct sd none defaultBaseIgnoredPatterns [] none).wantFile p = true) := by
  have hplain : sd.all plainSeg = true := cleanSeg_all_plain hsd
  have hstar : ∀ s ∈ sd, s ≠ "**" := cleanSeg_all_ne hsd
  obtain ⟨hlist, hsrc⟩ := construct_base_spec hplain
  refine ⟨?_, ?_, ?_, ?_⟩
  · apply wantFile_false_of_match (t := sd ++ ["**", ".*"])
    · rw [hlist]; simp
    · rw [hsrc, resolveWith_rel_plain hplain (by decide)]
      exact mmMatch_append_left sd hstar (by decide)
  · apply wantFile_false_of_match (t := sd ++ ["**", "*.zip"])
    · rw [hlist]; simp
    · rw [hsrc, resolveWith_rel_plain hplain (by decide)]
      exact mmMatch_append_left sd hstar (by decide)
  · intro r hne hrplain hcount
    have hresolve :
        resolveWith (FileFilter.construct sd none defaultBaseIgnoredPatterns [] none).sourceDir
          ⟨false, "node_modules" :: r⟩ = sd ++ ("node_modules" :: r) := by
      rw [hsrc]
      exact resolveWith_rel_plain hplain (by rw [List.all_cons, hrplain]; decide)
    rcases Nat.le_one_iff_eq_zero_or_eq_one.mp hcount with h0 | h1
    · have hnh : r.all (fun s => !headIsDot s) = true := by
        simp only [List.all_eq_true]
        intro s hs
        have := List.countP_eq_zero.mp h0 s hs
        simpa using this
      apply wantFile_false_of_match (t := sd ++ ["**", "node_modules", "**", "*"])
      · rw [hlist]; simp
      · rw [hresolve]
        apply mmMatch_append_left sd hstar
        apply mmMatch_globstar_zero (by simp)
        rw [mmMatch_cons_seg (by decide) _ _ _]
        simp [segMatchTop_self, mmMatch_globstar_star r hne hnh]
    · obtain ⟨pre, h0seg, post, rfl, hpre, hpost, hh⟩ := count_one_decomp h1
      rcases post with _ | ⟨p1, post'⟩
      · apply wantFile_false_of_match (t := sd ++ ["**", ".*"])
        · rw [hlist]; simp
        · rw [hresolve]
          apply mmMatch_append_left sd hstar
          have hsplit : ("node_modules" :: (pre ++ [h0seg])) =
              ("node_modules" :: pre) ++ [h0seg] := by simp
          rw [hsplit]
          apply mmMatch_globstar_swallow ("node_modules" :: pre) (by simp)
            (by rw [List.all_cons, hpre]; decide)
          apply mmMatch_globstar_zero (by simp)
          rw [mmMatch_cons_seg (by decide) _ _ _]
          simp [segMatchTop_dotstar hh, mmMatch_nil]
      · apply wantFile_false_of_match (t := sd ++ ["**", ".*", "**", "*"])
        · rw [hlist]; simp
        · rw [hresolve]
          apply mmMatch_append_left sd hstar
          have hsplit : ("node_modules" :: (pre ++ h0seg :: p1 :: post')) =
              ("node_modules" :: pre) ++ (h0seg :: p1 :: post') := by simp
          rw [hsplit]
          apply mmMatch_globstar_swallow ("node_modules" :: pre) (by simp)
            (by rw [List.all_cons, hpre]; decide)
          apply mmMatch_globstar_zero (by simp)
          rw [mmMatch_cons_seg (by decide) _ _ _]
          simp [segMatchTop_dotstar hh, mmMatch_globstar_star (p1 :: post') (by simp) hpost]
  · intro p hnone
    simp only [FileFilter.wantFile, Bool.not_eq_true', List.any_eq_false]
    intro t ht
    simp [hnone t ht]

/-- Claim C1 as stated is false: with the default base ignore patterns
(source directory `src`), the file `node_modules/.a/.b/c` sits under
`node_modules/` yet `wantFile` returns `true` for it — no default
pattern matches a path with two nested hidden directories. -/
theorem c1_counterexample_nested_hidden :
    (FileFilter.construct ["src"] none defaultBaseIgnoredPatterns [] none).wantFile
      ⟨false, ["node_modules", ".a", ".b", "c"]⟩ = true := by decide

theorem c1_witness :
    (FileFilter.construct ["src"] none defaultBaseIgnoredPatterns [] none).wantFile
      ⟨false, [".secret"]⟩ = false :=
  (c1_default_patterns_exclusions ["src"] (by decide)).1

theorem construct_artifacts_spec {sd ad : List String}
    (hsd : sd.all plainSeg = true) (had : ad.all plainSeg = true)
    (hsub : isSubPath sd ad = true) :
    (FileFilter.construct sd none defaultBaseIgnoredPatterns [] (some ad)).filesToIgnore =
      defaultBaseIgnoredPatterns.map (resolveWith sd) ++ [ad, ad ++ ["**", "*"]] ∧
    (FileFilter.construct sd none defaultBaseIgnoredPatterns [] (some ad)).sourceDir = sd := by
  constructor
  · simp only [FileFilter.construct]
    rw [normSegs_of_plain hsd, normSegs_of_plain had, if_pos hsub]
    simp
  · show normSegs sd = sd
    exact normSegs_of_plain hsd

/-- Claim C2, amended.  When `artifactsDir` is a strict descendant of
`sourceDir`, the artifacts directory itself and every path below it
whose segments under `artifactsDir` are all non-hidden are excluded
(the counterexample shows a path with two nested hidden directories
under `artifactsDir` that is NOT excluded, because neither the
`artifactsDir/**/*` pattern nor any default pattern crosses two hidden
segments).  When `artifactsDir` is not a strict descendant (equal,
parent, sibling), providing it changes nothing: the constructed filter
is the same as the one built without an artifacts directory. -/
theorem c2_artifacts_dir_filtering (sd ad rest : List String)
    (hsd : sd.all cleanSeg = true) (had : ad.all cleanSeg = true)
    (hsub : isSubPath sd ad = true)
    (hrest : rest.all (fun s => plainSeg s && !headIsDot s) = true) :
    (FileFilter.construct sd none defaultBaseIgnoredPatterns [] (some ad)).wantFile
      ⟨true, ad⟩ = false ∧
    (rest ≠ [] →
      (FileFilter.construct sd none defaultBaseIgnoredPatterns [] (some ad)).wantFile
        ⟨true, ad ++ rest⟩ = false) ∧
    (∀ (sd' ad' : List String) (w : Option (List RawPath)) (b ig : List RawPath),
      isSubPath (normSegs sd') (normSegs ad') = false →
      ∀ p : RawPath,
        (FileFilter.construct sd' w b ig (some ad')).wantFile p =
          (FileFilter.construct sd' w b ig none).wantFile p) := by
  have hsdp : sd.all plainSeg = true := cleanSeg_all_plain hsd
  have hadp : ad.all plainSeg = true := cleanSeg_all_plain had
  have hadne : ∀ s ∈ ad, s ≠ "**" := cleanSeg_all_ne had
  obtain ⟨hrplain, hrnh⟩ := all_and_split hrest
  obtain ⟨hlist, hsrc⟩ := construct_artifacts_spec hsdp hadp hsub
  refine ⟨?_, ?_, ?_⟩
  · apply wantFile_false_of_match (t := ad)
    · rw [hlist]; simp
    · rw [hsrc, resolveWith_abs, normSegs_of_plain hadp]
      exact mmMatch_self hadne
  · intro hne
    apply wantFile_false_of_match (t := ad ++ ["**", "*"])
    · rw [hlist]; simp
    · rw [hsrc, resolveWith_abs, normSegs_of_plain (by simp [List.all_append, hadp, hrplain])]
      exact mmMatch_append_left ad hadne (mmMatch_globstar_star rest hne hrnh)
  · intro sd' ad' w b ig hns p
    have heq : FileFilter.construct sd' w b ig (some ad') =
        FileFilter.construct sd' w b ig none := by
      simp only [FileFilter.construct, hns, Bool.false_eq_true, if_false, List.append_nil]
    rw [heq]

/-- Claim C2 as stated is false: with `sourceDir = src` and
`artifactsDir = src/artifacts` (a strict descendant), the path
`src/artifacts/.a/.b/c` lies under the artifacts directory, yet
`wantFile` returns `true` for it. -/
theorem c2_counterexample_hidden_under_artifacts :
    isSubPath ["src"] ["src", "artifacts"] = true ∧
    (FileFilter.construct ["src"] none defaultBaseIgnoredPatterns []
        (some ["src", "artifacts"])).wantFile
      ⟨true, ["src", "artifacts", ".a", ".b", "c"]⟩ = true := by decide

theorem c2_witness :
    (FileFilter.construct ["src"] none defaultBaseIgnoredPatterns []
        (some ["src", "out"])).wantFile ⟨true, ["src", "out", "ext.out"]⟩ = false :=
  ((c2_artifacts_dir_filtering ["src"] ["src", "out"] ["ext.out"]
      (by decide) (by decide) (by decide) (by decide)).2.1) (by decide)

/-- Claim C8: `wantFile` returns `false` exactly when some stored
pattern matches the resolved path (a logical OR over the stored
patterns), so permuting the stored pattern list never changes the
returned boolean. -/
theorem c8_pattern_order_irrelevant (ff : FileFilter) (p : RawPath) :
    (ff.wantFile p = false ↔
      ∃ t ∈ ff.filesToIgnore, mmMatch t (resolveWith ff.sourceDir p) = true) ∧
    (∀ l : List (List String), ff.filesToIgnore.Perm l →
      FileFilter.wantFile ⟨l, ff.sourceDir⟩ p = ff.wantFile p) := by
  constructor
  · simp [FileFilter.wantFile, List.any_eq_true]
  · intro l hperm
    simp only [FileFilter.wantFile]
    have hany : (l.any fun t => mmMatch t (resolveWith ff.sourceDir p)) =
        (ff.filesToIgnore.any fun t => mmMatch t (resolveWith ff.sourceDir p)) := by
      rw [Bool.eq_iff_iff]
      simp only [List.any_eq_true]
      constructor
      · rintro ⟨x, hx, hfx⟩
        exact ⟨x, hperm.mem_iff.mpr hx, hfx⟩
      · rintro ⟨x, hx, hfx⟩
        exact ⟨x, hperm.mem_iff.mp hx, hfx⟩
    rw [hany]

theorem c8_witness :
    FileFilter.wantFile ⟨[["a"], ["b"]], ["s"]⟩ ⟨false, ["x"]⟩ =
      FileFilter.wantFile ⟨[["b"], ["a"]], ["s"]⟩ ⟨false, ["x"]⟩ :=
  (c8_pattern_order_irrelevant ⟨[["b"], ["a"]], ["s"]⟩ ⟨false, ["x"]⟩).2
    [["a"], ["b"]] (List.Perm.swap ["a"] ["b"] [])

/-- Claim C10: a `.wextignore` containing an empty line makes the
constructor store `path.resolve(sourceDir, '') = sourceDir` itself as an
ignore pattern, after which both `wantFile(sourceDir)` and
`wantFile('')` return `false`. -/
theorem c10_empty_ignore_line (sd : List String) (lines : List RawPath)
    (hsd : sd.all cleanSeg = true) (hmem : (⟨false, []⟩ : RawPath) ∈ lines) :
    sd ∈ (FileFilter.construct sd (some lines) defaultBaseIgnoredPatterns []
      none).filesToIgnore ∧
    (FileFilter.construct sd (some lines) defaultBaseIgnoredPatterns [] none).wantFile
      ⟨true, sd⟩ = false ∧
    (FileFilter.construct sd (some lines) defaultBaseIgnoredPatterns [] none).wantFile
      ⟨false, []⟩ = false := by
  have hsdp : sd.all plainSeg = true := cleanSeg_all_plain hsd
  have hnorm : normSegs sd = sd := normSegs_of_plain hsdp
  have hresolve : resolveWith (normSegs sd) ⟨false, []⟩ = sd := by
    rw [hnorm, resolveWith_rel_plain hsdp (by decide), List.append_nil]
  have hmem' : sd ∈ (FileFilter.construct sd (some lines) defaultBaseIgnoredPatterns []
      none).filesToIgnore := by
    simp only [FileFilter.construct, List.append_nil, List.mem_append, List.mem_map]
    exact Or.inl (Or.inl ⟨⟨false, []⟩, hmem, hresolve⟩)
  have hsrc : (FileFilter.construct sd (some lines) defaultBaseIgnoredPatterns []
      none).sourceDir = sd := hnorm
  have hself : mmMatch sd sd = true := mmMatch_self (cleanSeg_all_ne hsd)
  refine ⟨hmem', ?_, ?_⟩
  · apply wantFile_false_of_match hmem'
    rw [hsrc, resolveWith_abs, hnorm]
    exact hself
  · apply wantFile_false_of_match hmem'
    rw [hsrc, resolveWith_rel_plain hsdp (by decide), List.append_nil]
    exact hself

theorem c10_witness :
    (["proj"] : List String) ∈
      (FileFilter.construct ["proj"] (some [⟨false, ["keep.me"]⟩, ⟨false, []⟩])
        defaultBaseIgnoredPatterns [] none).filesToIgnore ∧
    (FileFilter.construct ["proj"] (some [⟨false, ["keep.me"]⟩, ⟨false, []⟩])
        defaultBaseIgnoredPatterns [] none).wantFile ⟨true, ["proj"]⟩ = false ∧
    (FileFilter.construct ["proj"] (some [⟨false, ["keep.me"]⟩, ⟨false, []⟩])
        defaultBaseIgnoredPatterns [] none).wantFile ⟨false, []⟩ = false :=
  c10_empty_ignore_line ["proj"] [⟨false, ["keep.me"]⟩, ⟨false, []⟩]
    (by decide) (by decide)

end UtilFileFilter

/-! ### Claim theorems about the build module (C3, C4, C5, C6, C7, C9). -/

namespace BuildModule

theorem entryHasMessage_eq_true {o : Option MessageEntry}
    (h : entryHasMessage o = true) :
    ∃ m d, o = some ⟨some m, d⟩ ∧ m ≠ "" := by
  rcases o with _ | ⟨msg, d⟩
  · simp [entryHasMessage] at h
  · rcases msg with _ | m
    · simp [entryHasMessage] at h
    · exact ⟨m, d, rfl, by simpa [entryHasMessage] using h⟩

theorem replaceGo_error_of_bad (md : String → Option MessageEntry) (mf : String) :
    ∀ (n : Nat) (l : List Char), l.length < n →
      (∃ k ∈ scanKeysGo n l, entryHasMessage (md k) = false) →
      ∃ k, k ∈ scanKeysGo n l ∧ entryHasMessage (md k) = false ∧
        replaceGo md mf n l = Except.error (missingKeyError mf k) := by
  intro n
  induction n with
  | zero => intro l h; omega
  | succ n ih =>
    intro l hlen hbad
    rcases hstep : scanStep l with ⟨key, after⟩ | ⟨c, cs⟩ | _
    · have hafter : after.length < n := by
        have := scanStep_token_lt hstep; omega
      by_cases hk : entryHasMessage (md key) = true
      · obtain ⟨m, d, hmd, hmne⟩ := entryHasMessage_eq_true hk
        obtain ⟨k, hkmem, hkbad⟩ := hbad
        simp only [scanKeysGo, hstep] at hkmem
        rcases List.mem_cons.mp hkmem with rfl | hmemtail
        · rw [hkbad] at hk; exact absurd hk (by simp)
        · obtain ⟨k', hk'mem, hk'bad, herr⟩ := ih after hafter ⟨k, hmemtail, hkbad⟩
          refine ⟨k', ?_, hk'bad, ?_⟩
          · simp only [scanKeysGo, hstep]
            exact List.mem_cons_of_mem _ hk'mem
          · simp only [replaceGo, hstep, hmd]
            rw [if_neg hmne, herr]
            rfl
      · have hkf : entryHasMessage (md key) = false := by
          cases hke : entryHasMessage (md key)
          · rfl
          · exact absurd hke hk
        refine ⟨key, ?_, hkf, ?_⟩
        · simp only [scanKeysGo, hstep]
          exact List.mem_cons_self _ _
        · simp only [replaceGo, hstep]
          rcases hmd : md key with _ | ⟨msg, d⟩
          · rfl
          · rcases msg with _ | m
            · rfl
            · have hme : m = "" := by
                rw [hmd] at hkf
                simpa [entryHasMessage] using hkf
              subst hme
              rfl
    · have hcs : l = c :: cs := scanStep_skip_eq hstep
      have hlen' : cs.length < n := by
        rw [hcs, List.length_cons] at hlen; omega
      simp only [scanKeysGo, hstep] at hbad
      obtain ⟨k, hkmem, hkbad, herr⟩ := ih cs hlen' hbad
      refine ⟨k, ?_, hkbad, ?_⟩
      · simp only [scanKeysGo, hstep]
        exact hkmem
      · simp only [replaceGo, hstep]
        rw [herr]
        rfl
    · simp only [scanKeysGo, hstep] at hbad
      simp at hbad

theorem replaceGo_id_of_no_keys (md : String → Option MessageEntry) (mf : String) :
    ∀ (n : Nat) (l : List Char), l.length < n → scanKeysGo n l = [] →
      replaceGo md mf n l = Except.ok l := by
  intro n
  induction n with
  | zero => intro l h; omega
  | succ n ih =>
    intro l hlen hkeys
    rcases hstep : scanStep l with ⟨key, after⟩ | ⟨c, cs⟩ | _
    · simp only [scanKeysGo, hstep] at hkeys
      exact absurd hkeys (by simp)
    · have hcs : l = c :: cs := scanStep_skip_eq hstep
      have hlen' : cs.length < n := by
        rw [hcs, List.length_cons] at hlen; omega
      simp only [scanKeysGo, hstep] at hkeys
      simp only [replaceGo, hstep]
      rw [ih cs hlen' hkeys, hcs]
      rfl
    · have := scanStep_done_eq hstep
      subst this
      simp only [replaceGo, hstep]

/-- Claim C3: whenever the message file has been read and parsed
successfully and the manifest name contains a `__MSG_<key>__` token
whose key is absent from the catalog (or whose entry lacks a truthy
`message`), `getDefaultLocalizedName` rejects with the UsageError
naming the missing key and the message file, instead of returning a
partially substituted name — a single missing key aborts the whole
resolution. -/
theorem c3_missing_key_aborts
    (readFile : String → Except String String)
    (parseJSON : String → String → Except String (String → Option MessageEntry))
    (messageFile : String) (manifestData : ExtensionManifest)
    (contents : String) (cat : String → Option MessageEntry)
    (hread : readFile messageFile = Except.ok contents)
    (hparse : parseJSON contents messageFile = Except.ok cat)
    (hbad : ∃ k ∈ scanKeys manifestData.name, entryHasMessage (cat k) = false) :
    ∃ k, k ∈ scanKeys manifestData.name ∧ entryHasMessage (cat k) = false ∧
      getDefaultLocalizedName readFile parseJSON messageFile manifestData =
        Except.error (missingKeyError messageFile k) := by
  obtain ⟨k, hkmem, hkbad, herr⟩ :=
    replaceGo_error_of_bad cat messageFile (manifestData.name.data.length + 1)
      manifestData.name.data (by omega) hbad
  refine ⟨k, hkmem, hkbad, ?_⟩
  simp only [getDefaultLocalizedName, hread, hparse, replaceMessageTokens, herr]
  rfl

theorem c3_witness :
    ∃ k, k ∈ scanKeys "Hi __MSG_app_name__" ∧
      entryHasMessage ((fun _ => (none : Option MessageEntry)) k) = false ∧
      getDefaultLocalizedName (fun _ => Except.ok "not-a-catalog")
        (fun _ _ => Except.ok (fun _ => none))
        "/ext/_locales/en/messages.json"
        ⟨"Hi __MSG_app_name__", "1.0", some "en"⟩ =
        Except.error (missingKeyError "/ext/_locales/en/messages.json" k) :=
  c3_missing_key_aborts (fun _ => Except.ok "not-a-catalog")
    (fun _ _ => Except.ok (fun _ => none)) "/ext/_locales/en/messages.json"
    ⟨"Hi __MSG_app_name__", "1.0", some "en"⟩ "not-a-catalog" (fun _ => none)
    rfl rfl (by decide)

/-- Claim C5, amended.  With a truthy (present, non-empty)
`default_locale` and a token-free manifest name, the name-resolution
step of `defaultPackageCreator` still reads and parses the locale
message file: an unreadable file or a parse failure rejects with the
corresponding UsageError even though the catalog contents could not
affect the result, and a successful read+parse returns the name
unchanged whatever the catalog holds.  Localization is skipped entirely
when `default_locale` is absent — and also, because the source guard is
JS truthiness (`if (manifestData.default_locale)`), when it is the
empty string, which is what the counterexample exhibits. -/
theorem c5_localization_read_parse
    (readFile : String → Except String String)
    (parseJSON : String → String → Except String (String → Option MessageEntry))
    (sourceDir : String) (manifestData : ExtensionManifest) (locale : String)
    (hloc : manifestData.default_locale = some locale) (hne : locale ≠ "")
    (hnotok : scanKeys manifestData.name = []) :
    (∀ e, readFile (sourceDir ++ "/_locales/" ++ locale ++ "/messages.json") =
        Except.error e →
      resolveExtensionName readFile parseJSON sourceDir manifestData =
        Except.error ⟨"Error reading messages.json file at " ++
          (sourceDir ++ "/_locales/" ++ locale ++ "/messages.json") ++ ": " ++ e⟩) ∧
    (∀ contents perr,
      readFile (sourceDir ++ "/_locales/" ++ locale ++ "/messages.json") =
        Except.ok contents →
      parseJSON contents (sourceDir ++ "/_locales/" ++ locale ++ "/messages.json") =
        Except.error perr →
      resolveExtensionName readFile parseJSON sourceDir manifestData =
        Except.error ⟨"Error parsing messages.json " ++ perr⟩) ∧
    (∀ contents cat,
      readFile (sourceDir ++ "/_locales/" ++ locale ++ "/messages.json") =
        Except.ok contents →
      parseJSON contents (sourceDir ++ "/_locales/" ++ locale ++ "/messages.json") =
        Except.ok cat →
      resolveExtensionName readFile parseJSON sourceDir manifestData =
        Except.ok manifestData.name) ∧
    (∀ (rf2 : String → Except String String)
       (pj2 : String → String → Except String (String → Option MessageEntry))
       (md2 : ExtensionManifest), md2.default_locale = none →
      resolveExtensionName rf2 pj2 sourceDir md2 = Except.ok md2.name) := by
  refine ⟨?_, ?_, ?_, ?_⟩
  · intro e he
    simp only [resolveExtensionName, hloc, if_neg hne, getDefaultLocalizedName, he]
  · intro contents perr hc hp
    simp only [resolveExtensionName, hloc, if_neg hne, getDefaultLocalizedName, hc, hp]
  · intro contents cat hc hp
    simp only [resolveExtensionName, hloc, if_neg hne, getDefaultLocalizedName, hc, hp,
      replaceMessageTokens]
    rw [replaceGo_id_of_no_keys cat _ _ _ (by omega) hnotok]
    rfl
  · intro rf2 pj2 md2 hnone
    simp only [resolveExtensionName, hnone]

/-- Claim C5 as stated is false on one point: a manifest whose
`default_locale` is present but equal to the empty string is "set", yet
the JS truthiness guard skips localization entirely, so resolution
succeeds even though the message file is unreadable. -/
theorem c5_counterexample_empty_locale :
    ((⟨"NoTokens", "1.0", some ""⟩ : ExtensionManifest).default_locale ≠ none) ∧
    scanKeys "NoTokens" = [] ∧
    resolveExtensionName (fun _ => Except.error "ENOENT: unreadable")
      (fun _ _ => Except.error "not json") "/ext"
      ⟨"NoTokens", "1.0", some ""⟩ = Except.ok "NoTokens" := by
  refine ⟨by simp, by decide, rfl⟩

theorem c5_witness :
    resolveExtensionName (fun _ => Except.error "ENOENT")
      (fun _ _ => Except.error "unused") "/ext"
      ⟨"NoTokens", "1.0", some "en"⟩ =
      Except.error ⟨"Error reading messages.json file at " ++
        ("/ext" ++ "/_locales/" ++ "en" ++ "/messages.json") ++ ": " ++ "ENOENT"⟩ :=
  (c5_localization_read_parse (fun _ => Except.error "ENOENT")
      (fun _ _ => Except.error "unused") "/ext" ⟨"NoTokens", "1.0", some "en"⟩ "en"
      rfl (by decide) (by decide)).1 "ENOENT" rfl

theorem collapseGo_true_head :
    ∀ l : List Char, collapseGo true l = [] ∨
      ∃ c cs, collapseGo true l = c :: cs ∧ isSafeChar c = true := by
  intro l
  induction l with
  | nil => left; rfl
  | cons x xs ih =>
    cases hx : isSafeChar x
    · simpa only [collapseGo, hx, Bool.false_eq_true, if_false, if_true] using ih
    · right
      exact ⟨x, collapseGo false xs, by simp [collapseGo, hx], hx⟩

theorem noDoubleUnderscore_cons {c : Char} {X : List Char} (hc : c ≠ '_')
    (hX : noDoubleUnderscore X = true) : noDoubleUnderscore (c :: X) = true := by
  cases X with
  | nil => rfl
  | cons d rest =>
    have hcb : (c == '_') = false := by simp [hc]
    simp [noDoubleUnderscore, hcb, hX]

theorem collapseGo_noDouble : ∀ (l : List Char) (b : Bool),
    noDoubleUnderscore (collapseGo b l) = true := by
  intro l
  induction l with
  | nil => intro b; rfl
  | cons x xs ih =>
    intro b
    cases hx : isSafeChar x
    · cases b
      · simp only [collapseGo, hx, Bool.false_eq_true, if_false]
        rcases collapseGo_true_head xs with h0 | ⟨c', cs', heq, hsafe⟩
        · rw [h0]; rfl
        · rw [heq]
          have hc'ne : (c' == '_') = false := by
            have h3 : c' ≠ '_' := by
              intro he; subst he; revert hsafe; decide
            simp [h3]
          have h2 : noDoubleUnderscore (c' :: cs') = true := by
            rw [← heq]; exact ih true
          simp [noDoubleUnderscore, hc'ne, h2]
      · simp only [collapseGo, hx, Bool.false_eq_true, if_false, if_true]
        exact ih true
    · have hxe : x ≠ '_' := by
        intro he; subst he; revert hx; decide
      simp only [collapseGo, hx, if_true]
      exact noDoubleUnderscore_cons hxe (ih false)

theorem collapseGo_chars : ∀ (l : List Char) (b : Bool) (c : Char),
    c ∈ collapseGo b l → isSafeChar c = true ∨ c = '_' := by
  intro l
  induction l with
  | nil => intro b c hc; simp [collapseGo] at hc
  | cons x xs ih =>
    intro b c hc
    cases hx : isSafeChar x
    · cases b
      · simp only [collapseGo, hx, Bool.false_eq_true, if_false] at hc
        rcases List.mem_cons.mp hc with rfl | hc'
        · right; rfl
        · exact ih true c hc'
      · simp only [collapseGo, hx, Bool.false_eq_true, if_false, if_true] at hc
        exact ih true c hc
    · simp only [collapseGo, hx, if_true] at hc
      rcases List.mem_cons.mp hc with rfl | hc'
      · left; exact hx
      · exact ih false c hc'

/-- Claim C4, amended.  The archive name is
`safeFileName(`${extensionName}-${version}.zip`)`, which lower-cases the
string and replaces every maximal RUN of characters outside
`[a-z0-9.-]` by a single `_` (not one `_` per character — the
counterexample separates the two readings).  In particular
`"My Ext!"` with version `"1.0"` yields `"my_ext_-1.0.zip"`, as the
artifact path computed by the package creator shows; moreover no output
ever contains two adjacent underscores, and every output character is
in `[a-z0-9.-]` or `_`. -/
theorem c4_safe_file_name :
    (∀ (readFile : String → Except String String)
       (parseJSON : String → String → Except String (String → Option MessageEntry))
       (sourceDir artifactsDir : String),
      defaultPackagePath readFile parseJSON sourceDir artifactsDir
        ⟨"My Ext!", "1.0", none⟩ =
        Except.ok (artifactsDir ++ "/" ++ "my_ext_-1.0.zip")) ∧
    (∀ name version : String,
      noDoubleUnderscore (packageNameOf name version).data = true) ∧
    (∀ name version : String, ∀ c ∈ (packageNameOf name version).data,
      isSafeChar c = true ∨ c = '_') := by
  refine ⟨?_, ?_, ?_⟩
  · intro rf pj sd ad
    have h : packageNameOf "My Ext!" "1.0" = "my_ext_-1.0.zip" := by decide
    simp only [defaultPackagePath, resolveExtensionName, Except.map]
    rw [h]
  · intro name version
    exact collapseGo_noDouble _ _
  · intro name version c hc
    exact collapseGo_chars _ _ c hc

theorem c4_witness :
    isSafeChar 'm' = true ∨ 'm' = '_' :=
  c4_safe_file_name.2.2 "My Ext!" "1.0" 'm' (by decide)

/-- Claim C4 as stated is false: the claim describes a per-character
replacement, but the source regular expression `/[^a-z0-9\.-]+/g`
collapses a whole run; on the name `"My  Ext"` (two spaces) with
version `"1.0"` the code produces one underscore where the claim's
per-character description produces two. -/
theorem c4_counterexample_run_collapse :
    packageNameOf "My  Ext" "1.0" = "my_ext-1.0.zip" ∧
    safeFileNameSpecPerChar ("My  Ext" ++ "-" ++ "1.0" ++ ".zip") = "my__ext-1.0.zip" ∧
    packageNameOf "My  Ext" "1.0" ≠
      safeFileNameSpecPerChar ("My  Ext" ++ "-" ++ "1.0" ++ ".zip") := by
  refine ⟨by decide, by decide, by decide⟩

/-- Claim C6: the value `build` settles with is decided by the initial
packaging pass alone; when watch mode is entered, the registered
`onChange` handler logs a failed rebuild's error and re-raises it to
the watch layer, and its output never feeds back into the already
settled build result. -/
theorem c6_outer_promise_initial_only
    (sourceDir : List String) (asNeeded : Bool)
    (fileFilterOpt : Option FileFilter)
    (rf : List String → Option (List String))
    (prep : Except String Unit)
    (pc : FileFilter → Except String ExtensionBuildResult)
    (r : ExtensionBuildResult) (w : Option WatchRegistration)
    (h : build sourceDir asNeeded fileFilterOpt rf prep pc = Except.ok (r, w)) :
    (∃ ff, pc ff = Except.ok r) ∧
    (∀ reg, w = some reg → ∀ e, reg.onChange (Except.error e) = ([e], Except.error e)) ∧
    (∀ reg, w = some reg → ∀ o, (reg.onChange o).2 = o) ∧
    (asNeeded = false → w = none) := by
  unfold build at h
  cases prep with
  | error e => simp at h
  | ok u =>
    cases hpc : pc (effectiveFileFilter fileFilterOpt sourceDir rf) with
    | error e =>
      rw [hpc] at h
      simp at h
    | ok result =>
      rw [hpc] at h
      simp only [Except.ok.injEq, Prod.mk.injEq] at h
      obtain ⟨hr, hw⟩ := h
      subst hr
      refine ⟨⟨_, hpc⟩, ?_, ?_, ?_⟩
      · intro reg hreg e
        rw [← hw] at hreg
        cases asNeeded with
        | false => simp at hreg
        | true =>
          simp only [if_true, Option.some.injEq] at hreg
          rw [← hreg]
          rfl
      · intro reg hreg o
        rw [← hw] at hreg
        cases asNeeded with
        | false => simp at hreg
        | true =>
          simp only [if_true, Option.some.injEq] at hreg
          rw [← hreg]
          cases o <;> rfl
      · intro ha
        subst ha
        simp at hw
        exact hw.symm

theorem c6_witness :
    rebuildHandler (Except.error "boom") = (["boom"], Except.error "boom") :=
  (c6_outer_promise_initial_only ["s"] true none (fun _ => none) (Except.ok ())
      (fun _ => Except.ok ⟨"/a/x.zip"⟩) ⟨"/a/x.zip"⟩ _ rfl).2.1 _ rfl "boom"

/-- Claim C7, amended.  The orchestrator's `onChange` handler keeps no
"currently building" flag and no queue: it starts a packaging pass on
every change event, so a change event delivered while a rebuild is in
flight puts a second rebuild in flight concurrently.  At-most-one-
in-flight is not enforced by the orchestrator. -/
theorem c7_no_single_flight_guard (s : WatchSession) (h : 1 ≤ s.inFlight) :
    (watchStep s WatchEvent.change).inFlight = s.inFlight + 1 ∧
    2 ≤ (watchStep s WatchEvent.change).inFlight := by
  refine ⟨rfl, ?_⟩
  show 2 ≤ s.inFlight + 1
  omega

/-- Claim C7 as stated is false: the two-change trace is a valid event
delivery (the spec itself grants that change events can arrive during
an in-flight rebuild), and after it two rebuilds are running at once —
nothing queued, coalesced, rejected or deferred either one. -/
theorem c7_counterexample_overlap :
    validFrom ⟨0⟩ [WatchEvent.change, WatchEvent.change] = true ∧
    (runWatch ⟨0⟩ [WatchEvent.change, WatchEvent.change]).inFlight = 2 ∧
    ¬ SingleFlight ⟨0⟩ [WatchEvent.change, WatchEvent.change] := by
  refine ⟨by decide, by decide, ?_⟩
  intro hsf
  have h := hsf ⟨2⟩ (by decide)
  exact absurd h (by decide)

theorem c7_witness :
    (watchStep ⟨1⟩ WatchEvent.change).inFlight = 1 + 1 ∧
    2 ≤ (watchStep ⟨1⟩ WatchEvent.change).inFlight :=
  c7_no_single_flight_guard ⟨1⟩ (by decide)

/-- Claim C9: a `build` call without an explicit `fileFilter` option
constructs the build module's own ignore-library filter over
`sourceDir`, hands exactly that filter to the package creator and to
the watcher's `shouldWatchFile`; its rule list is exactly
`['*.xpi', '*.zip', '.*', 'node_modules']` (no `**/` forms, no
hidden-folder-contents pattern) followed by the newline-split lines of
`<sourceDir>/.xpiignore`; the stored rules do not depend on `sourceDir`
other than through that file, and `wantFile` consults the queried path
verbatim with no artifactsDir exclusion anywhere. -/
theorem c9_build_default_filter
    (sourceDir : List String)
    (rf : List String → Option (List String))
    (prep : Except String Unit)
    (pc : FileFilter → Except String ExtensionBuildResult)
    (r : ExtensionBuildResult) (w : Option WatchRegistration)
    (lines : List String)
    (hread : rf (sourceDir ++ [".xpiignore"]) = some lines)
    (hb : build sourceDir true none rf prep pc = Except.ok (r, w)) :
    pc (FileFilter.construct none (some sourceDir) rf) = Except.ok r ∧
    (∃ reg, w = some reg ∧ ∀ p, reg.shouldWatchFile p =
      (FileFilter.construct none (some sourceDir) rf).wantFile p) ∧
    (FileFilter.construct none (some sourceDir) rf).ignoreRules =
      ["*.xpi", "*.zip", ".*", "node_modules"] ++ lines ∧
    (∀ d₂ d₃ : List String,
      FileFilter.construct none (some d₂) (fun _ => some lines) =
        FileFilter.construct none (some d₃) (fun _ => some lines)) ∧
    (∀ (rules : List String) (p : List String),
      FileFilter.wantFile ⟨rules⟩ p = !(ignores rules p)) := by
  unfold build at hb
  cases prep with
  | error e => simp at hb
  | ok u =>
    cases hpc : pc (effectiveFileFilter none sourceDir rf) with
    | error e =>
      rw [hpc] at hb
      simp at hb
    | ok result =>
      rw [hpc] at hb
      simp only [Except.ok.injEq, Prod.mk.injEq, if_true] at hb
      obtain ⟨hr, hw⟩ := hb
      subst hr
      refine ⟨hpc, ⟨_, hw.symm, fun p => rfl⟩, ?_, ?_, fun rules p => rfl⟩
      · simp only [FileFilter.construct, hread]
        rfl
      · intro d₂ d₃
        simp [FileFilter.construct]

theorem c9_witness :
    (FileFilter.construct none (some ["proj"])
      (fun p => if p = ["proj", ".xpiignore"] then some ["extra"] else none)).ignoreRules =
      ["*.xpi", "*.zip", ".*", "node_modules"] ++ ["extra"] :=
  (c9_build_default_filter ["proj"]
      (fun p => if p = ["proj", ".xpiignore"] then some ["extra"] else none)
      (Except.ok ()) (fun _ => Except.ok ⟨"/a/x.zip"⟩) ⟨"/a/x.zip"⟩ _ ["extra"]
      (by decide) rfl).2.2.1

end BuildModule

end WebExt
